import Mathlib

/-!
Verification of `lint_wpt_root` from
`blink/tools/blinkpy/presubmit/common_checks.py`.

The function gathers the changed absolute paths that lie under a repository
root, builds a `wpt lint` command line, runs it as a child process, maps a
non-zero exit code to a single presubmit error, and always deletes the
temporary paths file it may have created.

The embedding below translates the function and the small slice of its
collaborators that its behaviour depends on: `os.path.relpath` and
`os.path.join` (POSIX semantics), `str.endswith`, the temporary file, the
child process, and `os.remove`.  File-system state is threaded explicitly;
exceptions are modelled with an explicit `raised` constructor.
-/

set_option autoImplicit false

namespace WptLint

/-! ### Character-level path helpers (collaborator model) -/

/-- Modelled from the spec: the collaborator path abstraction splits a path on
the separator.  Splits a character list on `'/'`; the resulting groups may be
empty (CPython `str.split('/')`). -/
def splitOnSlash : List Char → List (List Char)
  | [] => [[]]
  | c :: rest =>
    if c = '/' then [] :: splitOnSlash rest
    else
      match splitOnSlash rest with
      | [] => [[c]]
      | g :: gs => (c :: g) :: gs

/-- The non-empty components of a path, as in CPython's
`[x for x in path.split(sep) if x]`. -/
def splitComps (l : List Char) : List (List Char) :=
  (splitOnSlash l).filter (fun g => !g.isEmpty)

/-- One step of CPython `posixpath.normpath` component processing for an
absolute path: `'.'` is dropped, `'..'` pops the last retained component
(or is dropped at the root), anything else is appended. -/
def normStep (acc : List (List Char)) (c : List Char) : List (List Char) :=
  if c = ['.'] then acc
  else if c = ['.', '.'] then acc.dropLast
  else acc ++ [c]

/-- Modelled from the spec: the collaborator `os_path` normalisation of an
absolute path's component list (CPython `posixpath.normpath`). -/
def normComps (cs : List (List Char)) : List (List Char) :=
  cs.foldl normStep []

/-- Length of the common prefix of two component lists, as computed by
`genericpath.commonprefix` on the split component lists. -/
def commonPrefixLen : List (List Char) → List (List Char) → Nat
  | a :: as, b :: bs => if a = b then commonPrefixLen as bs + 1 else 0
  | _, _ => 0

/-- Join components with `'/'` separators (CPython `posixpath.join` applied
to relative components). -/
def joinSlash : List (List Char) → List Char
  | [] => []
  | [c] => c
  | c :: cs => c ++ '/' :: joinSlash cs

/-- Core of `posixpath.relpath` on normalised component lists: `ps` are the
path's components, `ss` the start directory's components. -/
def relFromComps (ps ss : List (List Char)) : List Char :=
  let i := commonPrefixLen ss ps
  let rel := List.replicate (ss.length - i) ['.', '.'] ++ ps.drop i
  if rel = [] then ['.'] else joinSlash rel

/-- `posixpath.relpath` at the character-list level, for absolute inputs. -/
def relpathChars (path start : List Char) : List Char :=
  relFromComps (normComps (splitComps path)) (normComps (splitComps start))

/-- Modelled from the spec: the collaborator `input_api.os_path.relpath`
("a way to join/relativize OS paths"), with CPython `posixpath.relpath`
semantics for absolute inputs. -/
def relpath (path start : String) : String :=
  ⟨relpathChars path.data start.data⟩

/-- Python `str.endswith`: `suf` is a suffix of `s`. -/
def endswith (s suf : String) : Bool :=
  decide (suf.data <:+ s.data)

/-- The filter applied to each absolute changed path (line 19 of the source):
`abs_path.endswith(input_api.os_path.relpath(abs_path, repo_root))`. -/
def keepPath (repo_root abs_path : String) : Bool :=
  endswith abs_path (relpath abs_path repo_root)

/-- Modelled from the spec: the collaborator `input_api.os_path.join` for two
arguments (CPython `posixpath.join`): if `b` starts with the separator it
replaces `a`; otherwise it is appended, inserting a separator unless `a` is
empty or already ends with one. -/
def osJoin (a b : String) : String :=
  if b.data.head? = some '/' then b
  else if a.data = [] ∨ a.data.getLast? = some '/' then a ++ b
  else a ++ "/" ++ b

/-! ### Data model -/

/-- An error record produced by `output_api.PresubmitError`. -/
structure PresubmitError where
  message : String
  long_text : String
  deriving DecidableEq

/-- Result of `subprocess.Popen` + `communicate`: either captured stdout,
stderr and the exit code, or a raised exception. -/
inductive PopenResult where
  | ok (stdout stderr : String) (returncode : Int)
  | raised (e : String)
  deriving DecidableEq

/-- How `lint_wpt_root` finishes: a normal return value or a propagated
exception. -/
inductive CallResult where
  | ret (errors : List PresubmitError)
  | raised (e : String)
  deriving DecidableEq

/-- A flat model of the file system: an association of file names to
contents. -/
abbrev FS := List (String × String)

/-- Create or overwrite a file. -/
def fsSet (fs : FS) (name contents : String) : FS :=
  (name, contents) :: fs.filter (fun kv => kv.1 != name)

/-- `os.remove`: delete a file by name. -/
def fsRemove (fs : FS) (name : String) : FS :=
  fs.filter (fun kv => kv.1 != name)

/-- Whether a file with the given name exists. -/
def fsHas (fs : FS) (name : String) : Bool :=
  fs.any (fun kv => kv.1 == name)

/-- The slice of `input_api` that `lint_wpt_root` reads. -/
structure InputApi where
  PresubmitLocalPath : String
  RepositoryRoot : String
  AbsoluteLocalPaths : List String
  python3_executable : String
  is_committing : Bool
  popen : List String → PopenResult

/-- Ambient OS state of one invocation: the initial file system, the fresh
name `tempfile.NamedTemporaryFile` would pick, and whether `os.remove`
raises (`none` means it succeeds). -/
structure Env where
  fs : FS
  tmpName : String
  removeError : Option String

/-- Everything observable about one invocation: the call's result, the
commands handed to `Popen`, the temporary files created (with the contents
they held when the child was launched), and the final file system. -/
structure Outcome where
  result : CallResult
  spawned : List (List String)
  created : List (String × String)
  fs : FS
  deriving DecidableEq

/-! ### The function under verification -/

/-- Line 12 of the source: `repo_root = repo_root or input_api.PresubmitLocalPath()`.
Among strings only `""` is falsy. -/
def resolveRepoRoot (api : InputApi) (repo_root : Option String) : String :=
  match repo_root with
  | none => api.PresubmitLocalPath
  | some s => if s = "" then api.PresubmitLocalPath else s

/-- Lines 13-14: `os.path.join(RepositoryRoot(), 'third_party', 'wpt_tools', 'wpt')`. -/
def wptRoot (api : InputApi) : String :=
  osJoin (osJoin (osJoin api.RepositoryRoot "third_party") "wpt_tools") "wpt"

/-- Line 15: `os.path.join(wpt_root, 'wpt')`. -/
def wptExecutable (api : InputApi) : String :=
  osJoin (wptRoot api) "wpt"

/-- Lines 17-20: the loop appending every absolute local path that passes the
`endswith(relpath(...))` test, in order. -/
def filteredPaths (api : InputApi) (repo_root : Option String) : List String :=
  api.AbsoluteLocalPaths.filter (fun p => keepPath (resolveRepoRoot api repo_root) p)

/-- Lines 53-54: the contents written to the temporary paths file, one path
per line, each line terminated by a newline. -/
def pathsFileContents (paths : List String) : String :=
  String.join (paths.map (fun p => p ++ "\n"))

/-- Lines 24-52: the full argument list handed to `Popen`. -/
def builtArgs (api : InputApi) (env : Env) (repo_root : Option String) : List String :=
  [api.python3_executable,
   wptExecutable api,
   "--venv=" ++ wptRoot api,
   "--skip-venv-setup",
   "lint",
   "--repo-root=" ++ resolveRepoRoot api repo_root,
   "--ignore-glob=*-expected.txt",
   "--ignore-glob=*.ini",
   "--ignore-glob=*DIR_METADATA",
   "--ignore-glob=*OWNERS",
   "--ignore-glob=config.tmpl.json"] ++
  (if api.is_committing then ["--all"] else ["--paths-file=" ++ env.tmpName])

/-- Lines 65-70: map the exit code to the returned list of errors. -/
def lintReport (stdout stderr : String) (rc : Int) : List PresubmitError :=
  if rc ≠ 0 then
    [{ message := "`wpt lint` failed:", long_text := stdout ++ stderr }]
  else []

/-- Lines 56-70: run the child process inside `try`, delete the paths file in
`finally`, then map the exit code.  `paths_name` is `None` in commit mode.
If `os.remove` raises, that exception propagates (replacing a prior one, as
in Python's `finally`). -/
def finallyBlock (api : InputApi) (env : Env) (args : List String)
    (paths_name : Option String) (fs : FS) (created : List (String × String)) : Outcome :=
  match api.popen args with
  | .raised e =>
    match paths_name with
    | none => { result := .raised e, spawned := [args], created := created, fs := fs }
    | some n =>
      match env.removeError with
      | some e2 => { result := .raised e2, spawned := [args], created := created, fs := fs }
      | none =>
        { result := .raised e, spawned := [args], created := created, fs := fsRemove fs n }
  | .ok stdout stderr rc =>
    match paths_name with
    | none =>
      { result := .ret (lintReport stdout stderr rc), spawned := [args],
        created := created, fs := fs }
    | some n =>
      match env.removeError with
      | some e2 => { result := .raised e2, spawned := [args], created := created, fs := fs }
      | none =>
        { result := .ret (lintReport stdout stderr rc), spawned := [args],
          created := created, fs := fsRemove fs n }

/-- The function under verification (`lint_wpt_root`, lines 10-70 of
`common_checks.py`). -/
def lint_wpt_root (api : InputApi) (env : Env) (repo_root : Option String) : Outcome :=
  if filteredPaths api repo_root = [] then
    { result := .ret [], spawned := [], created := [], fs := env.fs }
  else if api.is_committing then
    finallyBlock api env (builtArgs api env repo_root) none env.fs []
  else
    finallyBlock api env (builtArgs api env repo_root) (some env.tmpName)
      (fsSet env.fs env.tmpName (pathsFileContents (filteredPaths api repo_root)))
      [(env.tmpName, pathsFileContents (filteredPaths api repo_root))]

/-! ### Derived predicates used in the statements -/

/-- Whether a command-line argument is a `--paths-file` flag. -/
def isPathsFileFlag (s : String) : Bool :=
  "--paths-file=".data.isPrefixOf s.data

/-- The absolute path with the given non-empty separator-free components:
`"/" ++ c1 ++ "/" ++ c2 ++ ...`. -/
def mkPath (cs : List (List Char)) : String :=
  ⟨'/' :: joinSlash cs⟩

/-- A canonical path component: non-empty, containing no separator, and not
ending in a dot (which in particular rules out the special components `"."`
and `".."`). -/
def validComp (c : List Char) : Prop :=
  c ≠ [] ∧ '/' ∉ c ∧ c.getLast? ≠ some '.'

instance validCompDecidable (c : List Char) : Decidable (validComp c) := by
  unfold validComp; infer_instance

/-- Modelled from the spec: "the path lies under the root" — the normalised
location of `p` is strictly inside the directory tree of the normalised
location of `root`. -/
def liesUnder (p root : String) : Prop :=
  ∃ tail, tail ≠ [] ∧
    normComps (splitComps p.data) = normComps (splitComps root.data) ++ tail

instance liesUnderDecidable (p root : String) : Decidable (liesUnder p root) :=
  decidable_of_iff
    ((normComps (splitComps p.data)).take (normComps (splitComps root.data)).length
        = normComps (splitComps root.data) ∧
      (normComps (splitComps root.data)).length < (normComps (splitComps p.data)).length)
    (by
      constructor
      · rintro ⟨h1, h2⟩
        refine ⟨(normComps (splitComps p.data)).drop
          (normComps (splitComps root.data)).length, ?_, ?_⟩
        · intro h0
          rw [List.drop_eq_nil_iff] at h0
          omega
        · conv_lhs => rw [← List.take_append_drop
            (normComps (splitComps root.data)).length (normComps (splitComps p.data))]
          rw [h1]
      · rintro ⟨t, ht, heq⟩
        rw [heq]
        refine ⟨List.take_left _ _, ?_⟩
        have : 0 < t.length := List.length_pos.mpr ht
        simp [List.length_append]
        omega)

/-- Every pair of adjacent characters avoids a `'.'` immediately followed by
`'/'`; canonical absolute paths have this shape, relative paths produced by
`relpath` for locations outside the start directory do not. -/
def noDotBeforeSlash : List Char → Bool
  | [] => true
  | [_] => true
  | a :: b :: rest => !(a == '.' && b == '/') && noDotBeforeSlash (b :: rest)

/-! ### Concrete inputs used by the witnesses -/

/-- A commit-time invocation whose child exits 1. -/
def apiCommit : InputApi :=
  { PresubmitLocalPath := "/w", RepositoryRoot := "/c",
    AbsoluteLocalPaths := ["/w/a"], python3_executable := "python3",
    is_committing := true, popen := fun _ => .ok "out" "err" 1 }

/-- An upload-time invocation whose child exits 1. -/
def apiUpload : InputApi :=
  { apiCommit with is_committing := false }

/-- An upload-time invocation whose process execution raises. -/
def apiRaise : InputApi :=
  { apiUpload with popen := fun _ => .raised "boom" }

/-- An invocation none of whose changed paths is under the root `"/w"`. -/
def apiNoMatch : InputApi :=
  { apiCommit with AbsoluteLocalPaths := ["/other/a"] }

/-- The ambient state used by the witnesses. -/
def envW : Env :=
  { fs := [], tmpName := "/tmp/wpt-paths", removeError := none }

/-! ### Helper lemmas -/

theorem fsHas_fsRemove (fs : FS) (n : String) : fsHas (fsRemove fs n) n = false := by
  simp [fsRemove, fsHas]

theorem lintReport_eq_nil_iff (so se : String) (rc : Int) :
    lintReport so se rc = [] ↔ rc = 0 := by
  unfold lintReport
  by_cases h : rc = 0 <;> simp [h]

theorem finallyBlock_ok_result (api : InputApi) (env : Env) (args : List String)
    (pn : Option String) (fs : FS) (created : List (String × String))
    (so se : String) (rc : Int)
    (hrun : api.popen args = .ok so se rc) (hrm : env.removeError = none) :
    (finallyBlock api env args pn fs created).result = .ret (lintReport so se rc) := by
  unfold finallyBlock
  rw [hrun]
  cases pn with
  | none => rfl
  | some n => rw [hrm]

theorem finallyBlock_created (api : InputApi) (env : Env) (args : List String)
    (pn : Option String) (fs : FS) (created : List (String × String)) :
    (finallyBlock api env args pn fs created).created = created := by
  unfold finallyBlock
  cases api.popen args <;> cases pn <;> cases env.removeError <;> rfl

theorem finallyBlock_cleanup (api : InputApi) (env : Env) (args : List String)
    (n : String) (fs : FS) (created : List (String × String))
    (hrm : env.removeError = none) :
    (finallyBlock api env args (some n) fs created).fs = fsRemove fs n := by
  unfold finallyBlock
  cases api.popen args <;> rw [hrm]

theorem not_committing_ne_true {api : InputApi} (hc : api.is_committing = false) :
    ¬ api.is_committing = true := by
  simp [hc]

theorem finallyBlock_ret_fs (api : InputApi) (env : Env) (args : List String)
    (n : String) (fs : FS) (created : List (String × String)) :
    (∃ e2, env.removeError = some e2 ∧
      (finallyBlock api env args (some n) fs created).result = .raised e2) ∨
    (finallyBlock api env args (some n) fs created).fs = fsRemove fs n := by
  unfold finallyBlock
  cases api.popen args with
  | raised e =>
    cases hre : env.removeError with
    | some e2 => exact Or.inl ⟨e2, rfl, rfl⟩
    | none => exact Or.inr rfl
  | ok so se rc =>
    cases hre : env.removeError with
    | some e2 => exact Or.inl ⟨e2, rfl, rfl⟩
    | none => exact Or.inr rfl

theorem isPrefixOf_append_self {α : Type} [BEq α] [LawfulBEq α] (l t : List α) :
    l.isPrefixOf (l ++ t) = true := by
  induction l with
  | nil => simp
  | cons a as ih => simp [List.isPrefixOf, ih]

theorem append_ne_of_longer (a x b : String) (h : b.data.length < a.data.length) :
    (a ++ x) ≠ b := by
  intro he
  have hd : a.data ++ x.data = b.data := congrArg String.data he
  have hl := congrArg List.length hd
  rw [List.length_append] at hl
  omega

@[simp] theorem venv_arg_not_pathsfile (x : String) :
    isPathsFileFlag ("--venv=" ++ x) = false := rfl

@[simp] theorem reporoot_arg_not_pathsfile (x : String) :
    isPathsFileFlag ("--repo-root=" ++ x) = false := rfl

@[simp] theorem pathsfile_arg_is_pathsfile (x : String) :
    isPathsFileFlag ("--paths-file=" ++ x) = true := by
  show "--paths-file=".data.isPrefixOf ("--paths-file=".data ++ x.data) = true
  exact isPrefixOf_append_self _ _

@[simp] theorem ipf_skip_venv : isPathsFileFlag "--skip-venv-setup" = false := rfl

@[simp] theorem ipf_lint : isPathsFileFlag "lint" = false := rfl

@[simp] theorem ipf_glob_expected : isPathsFileFlag "--ignore-glob=*-expected.txt" = false := rfl

@[simp] theorem ipf_glob_ini : isPathsFileFlag "--ignore-glob=*.ini" = false := rfl

@[simp] theorem ipf_glob_dirmd : isPathsFileFlag "--ignore-glob=*DIR_METADATA" = false := rfl

@[simp] theorem ipf_glob_owners : isPathsFileFlag "--ignore-glob=*OWNERS" = false := rfl

@[simp] theorem ipf_glob_config : isPathsFileFlag "--ignore-glob=config.tmpl.json" = false := rfl

@[simp] theorem ipf_all : isPathsFileFlag "--all" = false := rfl

@[simp] theorem venv_arg_ne_all (x : String) : (("--venv=" ++ x) == "--all") = false := by
  simp only [beq_eq_false_iff_ne]
  exact append_ne_of_longer _ _ _ (by decide)

@[simp] theorem reporoot_arg_ne_all (x : String) :
    (("--repo-root=" ++ x) == "--all") = false := by
  simp only [beq_eq_false_iff_ne]
  exact append_ne_of_longer _ _ _ (by decide)

@[simp] theorem pathsfile_arg_ne_all (x : String) :
    (("--paths-file=" ++ x) == "--all") = false := by
  simp only [beq_eq_false_iff_ne]
  exact append_ne_of_longer _ _ _ (by decide)

/-! ### Claims -/

/-- C1: whenever the child process is spawned, the result is the empty list
iff the exit code is 0 (whatever the child printed); on a non-zero exit code
the result is exactly one error whose message is the fixed string
"\x60wpt lint\x60 failed:" and whose detail text is the captured stdout
followed by the captured stderr. -/
theorem lint_result_matches_exit_code (api : InputApi) (env : Env) (rr : Option String)
    (so se : String) (rc : Int)
    (hpaths : filteredPaths api rr ≠ [])
    (hrm : env.removeError = none)
    (hrun : api.popen (builtArgs api env rr) = .ok so se rc) :
    ((lint_wpt_root api env rr).result = .ret [] ↔ rc = 0) ∧
    (rc ≠ 0 → (lint_wpt_root api env rr).result =
        .ret [{ message := "`wpt lint` failed:", long_text := so ++ se }]) := by
  have hres : (lint_wpt_root api env rr).result = .ret (lintReport so se rc) := by
    unfold lint_wpt_root
    rw [if_neg hpaths]
    by_cases hc : api.is_committing = true
    · rw [if_pos hc]
      exact finallyBlock_ok_result api env _ none _ _ so se rc hrun hrm
    · rw [if_neg hc]
      exact finallyBlock_ok_result api env _ (some env.tmpName) _ _ so se rc hrun hrm
  constructor
  · rw [hres]
    simp [CallResult.ret.injEq, lintReport_eq_nil_iff]
  · intro hrc
    rw [hres]
    unfold lintReport
    rw [if_pos hrc]

/-- Witness for C1 at a commit-time invocation whose child exits 1. -/
theorem lint_result_matches_exit_code_witness :
    ((lint_wpt_root apiCommit envW none).result = .ret [] ↔ (1 : Int) = 0) ∧
    ((1 : Int) ≠ 0 → (lint_wpt_root apiCommit envW none).result =
        .ret [{ message := "`wpt lint` failed:", long_text := "out" ++ "err" }]) :=
  lint_result_matches_exit_code apiCommit envW none "out" "err" 1 (by decide) rfl rfl

/-- C2: in the non-commit branch with a non-empty filtered list, the
temporary paths file is created and no longer exists in the final file
system, on every exit path of the child process (exit 0, non-zero exit, or
raised exception), provided `os.remove` itself succeeds. -/
theorem tmp_file_removed_on_all_paths (api : InputApi) (env : Env) (rr : Option String)
    (hc : api.is_committing = false)
    (hpaths : filteredPaths api rr ≠ [])
    (hrm : env.removeError = none) :
    (lint_wpt_root api env rr).created =
      [(env.tmpName, pathsFileContents (filteredPaths api rr))] ∧
    fsHas (lint_wpt_root api env rr).fs env.tmpName = false := by
  unfold lint_wpt_root
  rw [if_neg hpaths, if_neg (not_committing_ne_true hc)]
  constructor
  · exact finallyBlock_created api env _ _ _ _
  · rw [finallyBlock_cleanup api env _ _ _ _ hrm]
    exact fsHas_fsRemove _ _

/-- Witness for C2 at an upload-time invocation whose process execution
raises. -/
theorem tmp_file_removed_on_all_paths_witness :
    (lint_wpt_root apiRaise envW none).created =
      [(envW.tmpName, pathsFileContents (filteredPaths apiRaise none))] ∧
    fsHas (lint_wpt_root apiRaise envW none).fs envW.tmpName = false :=
  tmp_file_removed_on_all_paths apiRaise envW none rfl (by decide) rfl

/-- C3: when no absolute local path passes the under-root filter, the call
returns the empty list, spawns nothing, creates no file, and leaves the file
system untouched — in commit mode and in upload mode alike. -/
theorem empty_filter_short_circuits (api : InputApi) (env : Env) (rr : Option String)
    (h : filteredPaths api rr = []) :
    lint_wpt_root api env rr =
      { result := .ret [], spawned := [], created := [], fs := env.fs } := by
  unfold lint_wpt_root
  rw [if_pos h]

/-- Witness for C3: a change set whose only path is outside the root. -/
theorem empty_filter_short_circuits_witness :
    lint_wpt_root apiNoMatch envW none =
      { result := .ret [], spawned := [], created := [], fs := envW.fs } :=
  empty_filter_short_circuits apiNoMatch envW none (by decide)

/-- C8: if process execution raises after the temporary paths file was
created, the cleanup deletion runs and the prior exception propagates to the
caller; a failing deletion is not suppressed — its own exception propagates
instead. -/
theorem exception_propagates_after_cleanup (api : InputApi) (env : Env) (rr : Option String)
    (e : String)
    (hc : api.is_committing = false)
    (hpaths : filteredPaths api rr ≠ [])
    (hrun : api.popen (builtArgs api env rr) = .raised e) :
    (env.removeError = none →
      (lint_wpt_root api env rr).result = .raised e ∧
      fsHas (lint_wpt_root api env rr).fs env.tmpName = false) ∧
    (∀ e2, env.removeError = some e2 →
      (lint_wpt_root api env rr).result = .raised e2) := by
  unfold lint_wpt_root
  rw [if_neg hpaths, if_neg (not_committing_ne_true hc)]
  unfold finallyBlock
  rw [hrun]
  constructor
  · intro hrm
    rw [hrm]
    exact ⟨rfl, fsHas_fsRemove _ _⟩
  · intro e2 h2
    rw [h2]

/-- Witness for C8 at an upload-time invocation whose process execution
raises and whose deletion succeeds. -/
theorem exception_propagates_after_cleanup_witness :
    (envW.removeError = none →
      (lint_wpt_root apiRaise envW none).result = .raised "boom" ∧
      fsHas (lint_wpt_root apiRaise envW none).fs envW.tmpName = false) ∧
    (∀ e2, envW.removeError = some e2 →
      (lint_wpt_root apiRaise envW none).result = .raised e2) :=
  exception_propagates_after_cleanup apiRaise envW none "boom" rfl (by decide) rfl

/-- C9: the explicit `repo_root` argument overrides the default only when it
is truthy — `None` and the empty string both fall back to
`PresubmitLocalPath()`, any other string is used as given. -/
theorem repo_root_truthy_override (api : InputApi) :
    resolveRepoRoot api none = api.PresubmitLocalPath ∧
    resolveRepoRoot api (some "") = api.PresubmitLocalPath ∧
    ∀ s : String, s ≠ "" → resolveRepoRoot api (some s) = s := by
  refine ⟨rfl, by simp [resolveRepoRoot], fun s hs => by simp [resolveRepoRoot, hs]⟩

/-- Witness for C9 at a concrete `input_api` and the override `"/x"`. -/
theorem repo_root_truthy_override_witness :
    resolveRepoRoot apiCommit none = apiCommit.PresubmitLocalPath ∧
    resolveRepoRoot apiCommit (some "") = apiCommit.PresubmitLocalPath ∧
    ∀ s : String, s ≠ "" → resolveRepoRoot apiCommit (some s) = s :=
  repo_root_truthy_override apiCommit

/-- C10: the filtered path list is a subsequence of `AbsoluteLocalPaths()`
(order preserved, no duplicates introduced), and the temporary paths file
records exactly those paths in that order. -/
theorem filtered_paths_subsequence (api : InputApi) (env : Env) (rr : Option String) :
    List.Sublist (filteredPaths api rr) api.AbsoluteLocalPaths ∧
    (api.is_committing = false → filteredPaths api rr ≠ [] →
      (lint_wpt_root api env rr).created =
        [(env.tmpName, pathsFileContents (filteredPaths api rr))]) := by
  constructor
  · exact List.filter_sublist _
  · intro hc hpaths
    unfold lint_wpt_root
    rw [if_neg hpaths, if_neg (not_committing_ne_true hc)]
    exact finallyBlock_created api env _ _ _ _

/-- Witness for C10 at an upload-time invocation with one matching path. -/
theorem filtered_paths_subsequence_witness :
    List.Sublist (filteredPaths apiUpload none) apiUpload.AbsoluteLocalPaths ∧
    (apiUpload.is_committing = false → filteredPaths apiUpload none ≠ [] →
      (lint_wpt_root apiUpload envW none).created =
        [(envW.tmpName, pathsFileContents (filteredPaths apiUpload none))]) :=
  filtered_paths_subsequence apiUpload envW none

/-- C4: a commit-time invocation with a non-empty filtered list puts `--all`
in the command, puts no `--paths-file` flag anywhere in it, and creates no
temporary file — provided the interpreter and wpt executable paths are not
themselves spelled like a `--paths-file` flag. -/
theorem commit_args_all_no_pathsfile (api : InputApi) (env : Env) (rr : Option String)
    (hc : api.is_committing = true)
    (hpaths : filteredPaths api rr ≠ [])
    (hpy : isPathsFileFlag api.python3_executable = false)
    (hwpt : isPathsFileFlag (wptExecutable api) = false) :
    "--all" ∈ builtArgs api env rr ∧
    (∀ a ∈ builtArgs api env rr, isPathsFileFlag a = false) ∧
    (lint_wpt_root api env rr).created = [] := by
  refine ⟨?_, ?_, ?_⟩
  · simp [builtArgs, hc]
  · intro a ha
    simp only [builtArgs, hc, if_true, List.mem_append, List.mem_cons,
      List.mem_singleton, List.not_mem_nil, or_false] at ha
    rcases ha with (rfl | rfl | rfl | rfl | rfl | rfl | rfl | rfl | rfl | rfl | rfl) | rfl
    exacts [hpy, hwpt, venv_arg_not_pathsfile _, ipf_skip_venv, ipf_lint,
      reporoot_arg_not_pathsfile _, ipf_glob_expected, ipf_glob_ini,
      ipf_glob_dirmd, ipf_glob_owners, ipf_glob_config, ipf_all]
  · unfold lint_wpt_root
    rw [if_neg hpaths, if_pos hc]
    exact finallyBlock_created api env _ _ _ _

/-- Witness for C4 at the commit-time invocation. -/
theorem commit_args_all_no_pathsfile_witness :
    "--all" ∈ builtArgs apiCommit envW none ∧
    (∀ a ∈ builtArgs apiCommit envW none, isPathsFileFlag a = false) ∧
    (lint_wpt_root apiCommit envW none).created = [] :=
  commit_args_all_no_pathsfile apiCommit envW none rfl (by decide) (by decide) (by decide)

/-- C5: a non-commit invocation with a non-empty filtered list puts exactly
one `--paths-file` flag in the command, naming the temporary file; the file's
contents when the child is launched are the filtered paths, one per line,
each newline-terminated; and whenever the call returns normally the file no
longer exists. -/
theorem noncommit_pathsfile_flag (api : InputApi) (env : Env) (rr : Option String)
    (hc : api.is_committing = false)
    (hpaths : filteredPaths api rr ≠ [])
    (hpy : isPathsFileFlag api.python3_executable = false)
    (hwpt : isPathsFileFlag (wptExecutable api) = false) :
    ("--paths-file=" ++ env.tmpName) ∈ builtArgs api env rr ∧
    (builtArgs api env rr).countP (fun a => isPathsFileFlag a) = 1 ∧
    (lint_wpt_root api env rr).created =
      [(env.tmpName, pathsFileContents (filteredPaths api rr))] ∧
    (∀ errs, (lint_wpt_root api env rr).result = .ret errs →
      fsHas (lint_wpt_root api env rr).fs env.tmpName = false) := by
  refine ⟨?_, ?_, ?_, ?_⟩
  · simp [builtArgs, hc]
  · simp [builtArgs, hc, List.countP_cons, List.countP_append, hpy, hwpt]
  · unfold lint_wpt_root
    rw [if_neg hpaths, if_neg (not_committing_ne_true hc)]
    exact finallyBlock_created api env _ _ _ _
  · intro errs hres
    unfold lint_wpt_root at hres ⊢
    rw [if_neg hpaths, if_neg (not_committing_ne_true hc)] at hres ⊢
    rcases finallyBlock_ret_fs api env (builtArgs api env rr) env.tmpName
        (fsSet env.fs env.tmpName (pathsFileContents (filteredPaths api rr)))
        [(env.tmpName, pathsFileContents (filteredPaths api rr))] with
      ⟨e2, _, hras⟩ | hfs
    · rw [hras] at hres
      simp at hres
    · rw [hfs]
      exact fsHas_fsRemove _ _

/-- Witness for C5 at the upload-time invocation. -/
theorem noncommit_pathsfile_flag_witness :
    ("--paths-file=" ++ envW.tmpName) ∈ builtArgs apiUpload envW none ∧
    (builtArgs apiUpload envW none).countP (fun a => isPathsFileFlag a) = 1 ∧
    (lint_wpt_root apiUpload envW none).created =
      [(envW.tmpName, pathsFileContents (filteredPaths apiUpload none))] ∧
    (∀ errs, (lint_wpt_root apiUpload envW none).result = .ret errs →
      fsHas (lint_wpt_root apiUpload envW none).fs envW.tmpName = false) :=
  noncommit_pathsfile_flag apiUpload envW none rfl (by decide) (by decide) (by decide)

/-- C7: every built command has the fixed shape — interpreter, wpt
executable, `--venv`, `--skip-venv-setup`, `lint`, `--repo-root`, the five
ignore globs in order — followed by exactly one of `--all` (commit) or a
`--paths-file` flag (upload), never both. -/
theorem built_args_shape (api : InputApi) (env : Env) (rr : Option String)
    (hpy1 : isPathsFileFlag api.python3_executable = false)
    (hpy2 : api.python3_executable ≠ "--all")
    (hwpt1 : isPathsFileFlag (wptExecutable api) = false)
    (hwpt2 : wptExecutable api ≠ "--all") :
    builtArgs api env rr =
      [api.python3_executable, wptExecutable api, "--venv=" ++ wptRoot api,
       "--skip-venv-setup", "lint", "--repo-root=" ++ resolveRepoRoot api rr,
       "--ignore-glob=*-expected.txt", "--ignore-glob=*.ini",
       "--ignore-glob=*DIR_METADATA", "--ignore-glob=*OWNERS",
       "--ignore-glob=config.tmpl.json"] ++
      (if api.is_committing then ["--all"] else ["--paths-file=" ++ env.tmpName]) ∧
    (builtArgs api env rr).countP (fun a => isPathsFileFlag a) =
      (if api.is_committing then 0 else 1) ∧
    (builtArgs api env rr).countP (fun a => a == "--all") =
      (if api.is_committing then 1 else 0) := by
  have hpy3 : (api.python3_executable == "--all") = false := beq_eq_false_iff_ne.mpr hpy2
  have hwpt3 : (wptExecutable api == "--all") = false := beq_eq_false_iff_ne.mpr hwpt2
  refine ⟨rfl, ?_, ?_⟩
  · by_cases hc : api.is_committing = true
    · simp [builtArgs, hc, List.countP_cons, List.countP_append, hpy1, hwpt1]
    · rw [Bool.not_eq_true] at hc
      simp [builtArgs, hc, List.countP_cons, List.countP_append, hpy1, hwpt1]
  · by_cases hc : api.is_committing = true
    · simp [builtArgs, hc, List.countP_cons, List.countP_append, hpy3, hwpt3]
    · rw [Bool.not_eq_true] at hc
      simp [builtArgs, hc, List.countP_cons, List.countP_append, hpy3, hwpt3]

/-! ### Analysis of the path filter (C6) -/

theorem splitOnSlash_ne_nil (l : List Char) : splitOnSlash l ≠ [] := by
  cases l with
  | nil => simp [splitOnSlash]
  | cons c rest =>
    by_cases h : c = '/'
    · simp [splitOnSlash, h]
    · simp only [splitOnSlash, if_neg h]
      cases splitOnSlash rest <;> simp

theorem splitOnSlash_append (l g : List Char) (gs : List (List Char))
    (h : splitOnSlash l = g :: gs) :
    ∀ c : List Char, '/' ∉ c → splitOnSlash (c ++ l) = (c ++ g) :: gs := by
  intro c
  induction c with
  | nil => intro _; simpa using h
  | cons a c ih =>
    intro hns
    have ha : a ≠ '/' := fun e => hns (e ▸ List.mem_cons_self _ _)
    have hc : '/' ∉ c := fun m => hns (List.mem_cons_of_mem _ m)
    rw [List.cons_append]
    simp only [splitOnSlash, if_neg ha, ih hc]
    rfl

theorem splitComps_slash (l : List Char) : splitComps ('/' :: l) = splitComps l := by
  simp [splitComps, splitOnSlash, List.filter_cons]

theorem splitComps_joinSlash (cs : List (List Char))
    (h : ∀ c ∈ cs, c ≠ [] ∧ '/' ∉ c) :
    splitComps (joinSlash cs) = cs := by
  induction cs with
  | nil => rfl
  | cons c cs ih =>
    obtain ⟨hc1, hc2⟩ := h c (List.mem_cons_self _ _)
    have hfilter : (!c.isEmpty) = true := by
      cases c
      · exact absurd rfl hc1
      · rfl
    cases cs with
    | nil =>
      have h1 := splitOnSlash_append [] [] [] rfl c hc2
      simp only [List.append_nil] at h1
      show splitComps (joinSlash [c]) = [c]
      rw [show joinSlash [c] = c from rfl]
      simp [splitComps, h1, List.filter_cons, hfilter]
    | cons d ds =>
      have ihh := ih (fun x hx => h x (List.mem_cons_of_mem _ hx))
      have h0 : splitOnSlash ('/' :: joinSlash (d :: ds)) =
          [] :: splitOnSlash (joinSlash (d :: ds)) := by
        simp [splitOnSlash]
      have h1 := splitOnSlash_append ('/' :: joinSlash (d :: ds)) []
        (splitOnSlash (joinSlash (d :: ds))) h0 c hc2
      rw [List.append_nil] at h1
      show splitComps (c ++ '/' :: joinSlash (d :: ds)) = c :: d :: ds
      unfold splitComps at ihh ⊢
      rw [h1, List.filter_cons, hfilter]
      simp only [if_true, ihh]

theorem foldl_normStep_id (cs : List (List Char)) :
    ∀ acc, (∀ c ∈ cs, c ≠ ['.'] ∧ c ≠ ['.', '.']) →
      List.foldl normStep acc cs = acc ++ cs := by
  induction cs with
  | nil => intro acc _; simp
  | cons c cs ih =>
    intro acc h
    obtain ⟨h1, h2⟩ := h c (List.mem_cons_self _ _)
    rw [List.foldl_cons, show normStep acc c = acc ++ [c] from by simp [normStep, h1, h2],
      ih _ (fun x hx => h x (List.mem_cons_of_mem _ hx))]
    simp

theorem normComps_id (cs : List (List Char))
    (h : ∀ c ∈ cs, c ≠ ['.'] ∧ c ≠ ['.', '.']) : normComps cs = cs := by
  simpa [normComps] using foldl_normStep_id cs [] h

theorem validComp_not_special {c : List Char} (h : validComp c) :
    c ≠ ['.'] ∧ c ≠ ['.', '.'] := by
  obtain ⟨-, -, h3⟩ := h
  constructor <;> rintro rfl <;> exact h3 (by decide)

theorem commonPrefixLen_append (rs tail : List (List Char)) :
    commonPrefixLen rs (rs ++ tail) = rs.length := by
  induction rs with
  | nil => cases tail <;> rfl
  | cons r rs ih => simp [commonPrefixLen, ih]

theorem commonPrefixLen_le_left :
    ∀ as bs : List (List Char), commonPrefixLen as bs ≤ as.length := by
  intro as
  induction as with
  | nil => intro bs; cases bs <;> simp [commonPrefixLen]
  | cons a as ih =>
    intro bs
    cases bs with
    | nil => simp [commonPrefixLen]
    | cons b bs =>
      by_cases h : a = b
      · simpa [commonPrefixLen, h] using ih bs
      · simp [commonPrefixLen, h]

theorem commonPrefixLen_full :
    ∀ rs ps : List (List Char), commonPrefixLen rs ps = rs.length →
      ps = rs ++ ps.drop rs.length := by
  intro rs
  induction rs with
  | nil => intro ps _; simp
  | cons r rs ih =>
    intro ps h
    cases ps with
    | nil =>
      rw [show commonPrefixLen (r :: rs) [] = 0 from rfl, List.length_cons] at h
      omega
    | cons p ps =>
      by_cases he : r = p
      · subst he
        rw [show commonPrefixLen (r :: rs) (r :: ps) = commonPrefixLen rs ps + 1 from
          by simp [commonPrefixLen], List.length_cons] at h
        have h2 := ih ps (by omega)
        rw [List.length_cons, List.drop_succ_cons, List.cons_append]
        exact congrArg (List.cons r) h2
      · rw [show commonPrefixLen (r :: rs) (p :: ps) = 0 from by simp [commonPrefixLen, he],
          List.length_cons] at h
        omega

theorem noDotBeforeSlash_tail {a : Char} {l : List Char}
    (h : noDotBeforeSlash (a :: l) = true) : noDotBeforeSlash l = true := by
  cases l with
  | nil => rfl
  | cons b r =>
    rw [noDotBeforeSlash, Bool.and_eq_true] at h
    exact h.2

theorem noDotBeforeSlash_drop :
    ∀ pre t : List Char, noDotBeforeSlash (pre ++ t) = true →
      noDotBeforeSlash t = true := by
  intro pre
  induction pre with
  | nil => intro t h; simpa using h
  | cons a pre ih => intro t h; exact ih t (noDotBeforeSlash_tail h)

theorem noDotBeforeSlash_of_suffix {t l : List Char} (hs : t <:+ l)
    (hl : noDotBeforeSlash l = true) : noDotBeforeSlash t = true := by
  obtain ⟨pre, rfl⟩ := hs
  exact noDotBeforeSlash_drop pre t hl

theorem noDotBeforeSlash_append :
    ∀ c : List Char, '/' ∉ c → c.getLast? ≠ some '.' →
      ∀ l, noDotBeforeSlash l = true → noDotBeforeSlash (c ++ l) = true := by
  intro c
  induction c with
  | nil => intro _ _ l hl; simpa using hl
  | cons a c ih =>
    intro hns hlast l hl
    cases c with
    | nil =>
      cases l with
      | nil => rfl
      | cons b r =>
        have ha : a ≠ '.' ∨ b ≠ '/' := by
          by_cases hb : b = '/'
          · left
            intro e
            exact hlast (by rw [e]; rfl)
          · right; exact hb
        show noDotBeforeSlash (a :: b :: r) = true
        rw [noDotBeforeSlash, Bool.and_eq_true]
        refine ⟨?_, hl⟩
        rcases ha with h | h <;> simp [h]
    | cons a2 c2 =>
      have hns2 : '/' ∉ (a2 :: c2) := fun m => hns (List.mem_cons_of_mem _ m)
      have hlast2 : (a2 :: c2).getLast? ≠ some '.' := by
        rwa [List.getLast?_cons_cons] at hlast
      have ha2 : a2 ≠ '/' := fun e => hns2 (e ▸ List.mem_cons_self _ _)
      have ihh := ih hns2 hlast2 l hl
      show noDotBeforeSlash (a :: a2 :: (c2 ++ l)) = true
      rw [noDotBeforeSlash, Bool.and_eq_true]
      exact ⟨by simp [ha2], ihh⟩

theorem noDotBeforeSlash_joinSlash (cs : List (List Char))
    (h : ∀ c ∈ cs, validComp c) : noDotBeforeSlash (joinSlash cs) = true := by
  induction cs with
  | nil => rfl
  | cons c cs ih =>
    obtain ⟨h1, h2, h3⟩ := h c (List.mem_cons_self _ _)
    cases cs with
    | nil =>
      show noDotBeforeSlash (joinSlash [c]) = true
      rw [show joinSlash [c] = c from rfl,
        show c = c ++ [] from (List.append_nil c).symm]
      exact noDotBeforeSlash_append c h2 h3 [] rfl
    | cons d ds =>
      have ihh := ih (fun x hx => h x (List.mem_cons_of_mem _ hx))
      show noDotBeforeSlash (c ++ '/' :: joinSlash (d :: ds)) = true
      apply noDotBeforeSlash_append c h2 h3
      cases hj : joinSlash (d :: ds) with
      | nil => rfl
      | cons b r =>
        rw [hj] at ihh
        rw [noDotBeforeSlash, Bool.and_eq_true]
        exact ⟨by simp, ihh⟩

theorem noDotBeforeSlash_mkPath (cs : List (List Char))
    (h : ∀ c ∈ cs, validComp c) : noDotBeforeSlash (mkPath cs).data = true := by
  have hj := noDotBeforeSlash_joinSlash cs h
  show noDotBeforeSlash ('/' :: joinSlash cs) = true
  cases hj2 : joinSlash cs with
  | nil => rfl
  | cons b r =>
    rw [hj2] at hj
    rw [noDotBeforeSlash, Bool.and_eq_true]
    exact ⟨by simp, hj⟩

theorem mkPath_getLast (cs : List (List Char))
    (h : ∀ c ∈ cs, validComp c) : (mkPath cs).data.getLast? ≠ some '.' := by
  show ('/' :: joinSlash cs).getLast? ≠ some '.'
  induction cs with
  | nil => simp [joinSlash]
  | cons c cs ih =>
    obtain ⟨h1, h2, h3⟩ := h c (List.mem_cons_self _ _)
    cases cs with
    | nil =>
      show ('/' :: joinSlash [c]).getLast? ≠ some '.'
      rw [show joinSlash [c] = c from rfl]
      cases c with
      | nil => exact absurd rfl h1
      | cons a as =>
        rw [List.getLast?_cons_cons]
        exact h3
    | cons d ds =>
      have ihh := ih (fun x hx => h x (List.mem_cons_of_mem _ hx))
      show ('/' :: (c ++ '/' :: joinSlash (d :: ds))).getLast? ≠ some '.'
      rw [show ('/' :: (c ++ '/' :: joinSlash (d :: ds))) =
        ('/' :: c) ++ ('/' :: joinSlash (d :: ds)) from by simp]
      rw [List.getLast?_append_of_ne_nil _ (by simp)]
      exact ihh

theorem suffix_singleton_getLast {x : Char} {l : List Char} (h : [x] <:+ l) :
    l.getLast? = some x := by
  obtain ⟨pre, rfl⟩ := h
  exact List.getLast?_concat pre

theorem suffix_dotdot_getLast {l : List Char} (h : ['.', '.'] <:+ l) :
    l.getLast? = some '.' := by
  obtain ⟨pre, rfl⟩ := h
  rw [show pre ++ ['.', '.'] = (pre ++ ['.']) ++ ['.'] from by simp]
  exact List.getLast?_concat _

theorem joinSlash_suffix :
    ∀ rs tail : List (List Char), tail ≠ [] →
      joinSlash tail <:+ joinSlash (rs ++ tail) := by
  intro rs
  induction rs with
  | nil => intro tail _; simp
  | cons r rs ih =>
    intro tail ht
    have h1 := ih tail ht
    cases hx : rs ++ tail with
    | nil => exact absurd (List.append_eq_nil.mp hx).2 ht
    | cons y ys =>
      show joinSlash tail <:+ joinSlash (r :: (rs ++ tail))
      rw [hx] at h1 ⊢
      rw [show joinSlash (r :: y :: ys) = r ++ '/' :: joinSlash (y :: ys) from rfl]
      exact h1.trans ((List.suffix_cons '/' _).trans ⟨r, rfl⟩)

theorem relFromComps_eq_of_under (rs tail : List (List Char)) (ht : tail ≠ []) :
    relFromComps (rs ++ tail) rs = joinSlash tail := by
  simp only [relFromComps, commonPrefixLen_append, Nat.sub_self, List.replicate_zero,
    List.nil_append, List.drop_left]
  simp [ht]

theorem normSplit_mkPath (cs : List (List Char)) (h : ∀ c ∈ cs, validComp c) :
    normComps (splitComps (mkPath cs).data) = cs := by
  show normComps (splitComps ('/' :: joinSlash cs)) = cs
  rw [splitComps_slash,
    splitComps_joinSlash cs (fun c hc => ⟨(h c hc).1, (h c hc).2.1⟩),
    normComps_id cs (fun c hc => validComp_not_special (h c hc))]

/-- C6 (amended): for absolute paths in canonical form — every component
non-empty, separator-free and not ending in a dot — the source's
`endswith(relpath(path, root))` filter keeps the path exactly when the path
lies strictly under the root.  (The unrestricted claim is refuted by
`filter_keeps_path_outside_root`.) -/
theorem filter_under_root_canonical (ps rs : List (List Char))
    (hp : ∀ c ∈ ps, validComp c) (hr : ∀ c ∈ rs, validComp c) :
    keepPath (mkPath rs) (mkPath ps) = true ↔ liesUnder (mkPath ps) (mkPath rs) := by
  have hnp := normSplit_mkPath ps hp
  have hnr := normSplit_mkPath rs hr
  have hlu : liesUnder (mkPath ps) (mkPath rs) ↔
      ∃ tail, tail ≠ [] ∧ ps = rs ++ tail := by
    unfold liesUnder
    rw [hnp, hnr]
  rw [hlu]
  unfold keepPath endswith
  rw [decide_eq_true_eq]
  have hrel : (relpath (mkPath ps) (mkPath rs)).data = relFromComps ps rs := by
    show relpathChars (mkPath ps).data (mkPath rs).data = relFromComps ps rs
    unfold relpathChars
    rw [hnp, hnr]
  rw [hrel]
  constructor
  · intro hsuf
    by_cases hk : commonPrefixLen rs ps = rs.length
    · have hps := commonPrefixLen_full rs ps hk
      cases hd : ps.drop rs.length with
      | nil =>
        exfalso
        have hrel0 : relFromComps ps rs = ['.'] := by
          simp only [relFromComps, hk, Nat.sub_self, List.replicate_zero,
            List.nil_append, hd]
          rfl
        rw [hrel0] at hsuf
        exact mkPath_getLast ps hp (suffix_singleton_getLast hsuf)
      | cons x xs =>
        refine ⟨x :: xs, by simp, ?_⟩
        rw [← hd]
        exact hps
    · exfalso
      have hlt : commonPrefixLen rs ps < rs.length :=
        lt_of_le_of_ne (commonPrefixLen_le_left rs ps) hk
      obtain ⟨k1, hk1⟩ : ∃ k1, rs.length - commonPrefixLen rs ps = k1 + 1 :=
        ⟨rs.length - commonPrefixLen rs ps - 1, by omega⟩
      have hrel1 : relFromComps ps rs =
          joinSlash (['.', '.'] ::
            (List.replicate k1 ['.', '.'] ++ ps.drop (commonPrefixLen rs ps))) := by
        simp only [relFromComps, hk1, List.replicate_succ, List.cons_append]
        simp
      rw [hrel1] at hsuf
      cases hrest : List.replicate k1 ['.', '.'] ++ ps.drop (commonPrefixLen rs ps) with
      | nil =>
        rw [hrest] at hsuf
        exact mkPath_getLast ps hp (suffix_dotdot_getLast hsuf)
      | cons y ys =>
        rw [hrest] at hsuf
        have hgood := noDotBeforeSlash_of_suffix hsuf (noDotBeforeSlash_mkPath ps hp)
        have hbad : noDotBeforeSlash (joinSlash (['.', '.'] :: y :: ys)) = false := by
          show noDotBeforeSlash ('.' :: '.' :: '/' :: joinSlash (y :: ys)) = false
          rw [noDotBeforeSlash, noDotBeforeSlash]
          simp
        rw [hgood] at hbad
        exact absurd hbad (by decide)
  · rintro ⟨tail, ht, rfl⟩
    rw [relFromComps_eq_of_under rs tail ht]
    exact (joinSlash_suffix rs tail ht).trans (List.suffix_cons '/' _)

/-- Witness for the amended C6: the canonical path `/a/b` under the root
`/a`. -/
theorem filter_under_root_canonical_witness :
    keepPath (mkPath [['a']]) (mkPath [['a'], ['b']]) = true ↔
      liesUnder (mkPath [['a'], ['b']]) (mkPath [['a']]) :=
  filter_under_root_canonical [['a'], ['b']] [['a']] (by decide) (by decide)

/-- C6 counterexample: the `endswith(relpath(...))` filter is not equivalent
to lying under the root for arbitrary absolute paths.  `/r/../q` resolves to
`/q`, outside the root `/r`, yet is kept; and even the fully normalised path
`/z../a../t` is kept for the root `/z../b` although it lies outside it. -/
theorem filter_keeps_path_outside_root :
    (keepPath "/r" "/r/../q" = true ∧ ¬ liesUnder "/r/../q" "/r") ∧
    (keepPath "/z../b" "/z../a../t" = true ∧ ¬ liesUnder "/z../a../t" "/z../b") := by
  decide

/-- Witness for C7 at the commit-time invocation. -/
theorem built_args_shape_witness :
    builtArgs apiCommit envW none =
      [apiCommit.python3_executable, wptExecutable apiCommit,
       "--venv=" ++ wptRoot apiCommit, "--skip-venv-setup", "lint",
       "--repo-root=" ++ resolveRepoRoot apiCommit none,
       "--ignore-glob=*-expected.txt", "--ignore-glob=*.ini",
       "--ignore-glob=*DIR_METADATA", "--ignore-glob=*OWNERS",
       "--ignore-glob=config.tmpl.json"] ++
      (if apiCommit.is_committing then ["--all"]
       else ["--paths-file=" ++ envW.tmpName]) ∧
    (builtArgs apiCommit envW none).countP (fun a => isPathsFileFlag a) =
      (if apiCommit.is_committing then 0 else 1) ∧
    (builtArgs apiCommit envW none).countP (fun a => a == "--all") =
      (if apiCommit.is_committing then 1 else 0) :=
  built_args_shape apiCommit envW none (by decide) (by decide) (by decide) (by decide)

end WptLint
